import Mathlib

/-!
# Verification of the tex3ds encoding core

Shallow embedding of the tex3ds texture-conversion core
(`include/quantum.h`, `swizzle.cpp`, `tex3ds.cpp`, `tex3ds.h`) and proofs
about it.  Machine integers are modelled as `Nat` (with explicit `% 256`
where a `uint8_t` store could truncate); pixel buffers are modelled as
total functions `Nat → α` together with their logical element counts,
so out-of-bounds accesses are tracked by explicit bound predicates;
the C++ `double` computations in `potCeil` and the header packing are
modelled by exact integer logarithms (for the argument ranges that occur,
`std::log2`/`std::pow`/`std::log` on small integers are exact).
Code of the repository that is not part of the provided sources
(`compress.h`, `subimage.h`, `encode.h` internals) is modelled from the
specification and marked as such.
-/

namespace Tex3DS

/-! ## Definitions: the shallow embedding of the encoding core -/

/-- Pixel type from `tex3ds.h`: four 8-bit channels, stored as `b, g, r, a`.
Channels are modelled as `Nat` values (the code only ever copies whole
`RGBA` values in the parts verified here). -/
structure RGBA where
  b : Nat
  g : Nat
  r : Nat
  a : Nat
deriving DecidableEq, Repr

/-- The zero pixel: `std::vector<RGBA>::resize` value-initializes, so a
freshly allocated canvas holds all-zero pixels. -/
def rgbaZero : RGBA := ⟨0, 0, 0, 0⟩

/-- Image from `tex3ds.h`: row stride, width, height and the pixel buffer.
The buffer of `std::vector<RGBA>` is modelled as a total function from
flat index to pixel; its logical size is `w * h` (see `mkImage`). -/
structure Image (α : Type) where
  stride : Nat
  w : Nat
  h : Nat
  pixels : Nat → α

/-- `Image(w, h)` constructor from `tex3ds.h`: sets `stride = w` and
allocates `w * h` value-initialized (zero) pixels. -/
def mkImage (w h : Nat) : Image RGBA :=
  ⟨w, w, h, fun _ => rgbaZero⟩

/-- Process formats from `tex3ds.h` (`enum ProcessFormat`). -/
inductive ProcessFormat where
  | RGBA8888 | RGB888 | RGBA5551 | RGB565 | RGBA4444
  | LA88 | HILO88 | L8 | A8 | LA44 | L4 | A4
  | ETC1 | ETC1A4
  | AUTO_L8 | AUTO_L4 | AUTO_ETC1
deriving DecidableEq, Repr

/-- Compression formats from `tex3ds.h` (`enum CompressionFormat`). -/
inductive CompressionFormat where
  | COMPRESSION_NONE | COMPRESSION_LZ10 | COMPRESSION_LZ11
  | COMPRESSION_RLE | COMPRESSION_HUFF | COMPRESSION_AUTO
deriving DecidableEq, Repr

/-- Error kinds of the pipeline (spec §7); the code raises them as
`std::runtime_error` with messages "Invalid width" / "Invalid height" /
"Failed to compress data" / output failures. -/
inductive TexError where
  | InvalidDimension
  | CompressionFailure
  | IOFailure
deriving DecidableEq, Repr

/-- `potCeil` from `tex3ds.cpp`. -/
def potCeil (x : Nat) : Nat :=
  if x < 8 then 8
  else 2 ^ Nat.clog 2 x

/-- `quantum_to_bits<bits>(v) = (1 << bits) * v / (QuantumRange + 1)`
from `quantum.h`, truncated to `uint8_t`. -/
def quantum_to_bits (bits v : Nat) : Nat :=
  2 ^ bits * v / 256 % 256

/-- `bits_to_quantum<bits>(v) = v * QuantumRange / ((1 << bits) - 1)`
from `quantum.h`, truncated to `uint8_t`. -/
def bits_to_quantum (bits v : Nat) : Nat :=
  v * 255 / (2 ^ bits - 1) % 256

/-- `quantize<bits>(v) = bits_to_quantum<bits>(quantum_to_bits<bits>(v))`
from `quantum.h`. -/
def quantize (bits v : Nat) : Nat :=
  bits_to_quantum bits (quantum_to_bits bits v)

/-- Modelled from the spec: the `SubImage` record (`subimage.h` is not in
the provided sources).  Spec §3: a sub-image descriptor holds a z-order
index, an optional name, a normalized rectangle `(left, top, right,
bottom)` with flipped-V convention, and a rotation flag; §4.1 gives the
constructor argument order used by `load_image`:
`(index, name, left, top, right, bottom, rotated)`.  The `float`
coordinates are modelled as rationals (all values produced here are dyadic
with numerator/denominator ≤ 1024, hence exactly representable). -/
structure SubImage where
  index : Nat
  name : String
  left : ℚ
  top : ℚ
  right : ℚ
  bottom : ℚ
  rotated : Bool
deriving DecidableEq, Repr

/-- One `memcpy` of `len` pixels from `src + sOff` to `dst + dOff`,
element by element (`memcpy(&dst[dOff], &src[sOff], len*sizeof(RGBA))`). -/
def memcpyPix {α : Type} (dst : Nat → α) (src : Nat → α)
    (dOff sOff len : Nat) : Nat → α :=
  (List.range len).foldl
    (fun d t => Function.update d (dOff + t) (src (sOff + t))) dst

/-- The canvas-expansion branch of `load_image`: allocate
`Image(output_width, output_height)` and run the row-copy loop
`for (r = 0; r < image_height; r++) memcpy(&new_img.pixels[new_img.stride*r],
&img.pixels[img.stride*r], img.stride*r*sizeof(RGBA))`.
Note the copied byte count is `img.stride * r`, scaling with the row
index `r` exactly as in the source. -/
def expandCanvas (img : Image RGBA) (ow oh : Nat) : Image RGBA :=
  let new_img := mkImage ow oh
  { new_img with
    pixels := (List.range img.h).foldl
      (fun d r =>
        memcpyPix d img.pixels (new_img.stride * r) (img.stride * r)
          (img.stride * r))
      new_img.pixels }

/-- The set of buffer accesses made by the row-copy loop of
`expandCanvas`, as in-bounds conditions: for each row `r < img.h`, the
source read range `[img.stride*r, img.stride*r + img.stride*r)` must lie
within the `img.w * img.h`-element source buffer, and the destination
write range `[ow*r, ow*r + img.stride*r)` within the `ow * oh`-element
destination buffer. -/
def expandCopyInBounds (img : Image RGBA) (ow oh : Nat) : Prop :=
  ∀ r < img.h,
    img.stride * r + img.stride * r ≤ img.w * img.h ∧
    ow * r + img.stride * r ≤ ow * oh

instance (img : Image RGBA) (ow oh : Nat) :
    Decidable (expandCopyInBounds img ow oh) := by
  unfold expandCopyInBounds
  infer_instance

/-- `Invocation::load_image` from tex3ds.cpp.  Returns the image to
process together with the sub-image list and the computed
`output_width` / `output_height`.  Throws (models as `Except.error`)
when a dimension exceeds the 1024 hardware maximum. -/
def load_image (img : Image RGBA) :
    Except TexError (Image RGBA × List SubImage × Nat × Nat) :=
  if img.w > 1024 then .error .InvalidDimension
  else if img.h > 1024 then .error .InvalidDimension
  else
    let output_width := potCeil img.w
    let output_height := potCeil img.h
    let subs : List SubImage :=
      [⟨0, "", 0, 1, (img.w : ℚ) / output_width,
        1 - (img.h : ℚ) / output_height, false⟩]
    if img.w ≠ output_width ∨ img.h ≠ output_height then
      .ok (expandCanvas img output_width output_height, subs,
        output_width, output_height)
    else
      .ok (img, subs, output_width, output_height)

/-- The swizzle foursome table from `swizzle.cpp`. -/
def swizzleTable : List (Fin 64 × Fin 64 × Fin 64 × Fin 64) :=
  [(2, 8, 16, 4), (3, 9, 17, 5), (6, 10, 24, 20), (7, 11, 25, 21),
   (14, 26, 28, 22), (15, 27, 29, 23), (34, 40, 48, 36), (35, 41, 49, 37),
   (38, 42, 56, 52), (39, 43, 57, 53), (46, 58, 60, 54), (47, 59, 61, 55)]

/-- Forward rotation of one foursome:
`tmp = *p[a]; *p[a] = *p[b]; *p[b] = *p[c]; *p[c] = *p[d]; *p[d] = tmp`,
each read taken from the state left by the previous write. -/
def rotFwd {ι α : Type} [DecidableEq ι] (p : ι → α) (a b c d : ι) : ι → α :=
  let tmp := p a
  let p1 := Function.update p a (p b)
  let p2 := Function.update p1 b (p1 c)
  let p3 := Function.update p2 c (p2 d)
  Function.update p3 d tmp

/-- Reverse rotation of one foursome:
`tmp = *p[d]; *p[d] = *p[c]; *p[c] = *p[b]; *p[b] = *p[a]; *p[a] = tmp`. -/
def rotRev {ι α : Type} [DecidableEq ι] (p : ι → α) (a b c d : ι) : ι → α :=
  let tmp := p d
  let p1 := Function.update p d (p c)
  let p2 := Function.update p1 c (p1 b)
  let p3 := Function.update p2 b (p2 a)
  Function.update p3 a tmp

/-- `std::swap(*p[a], *p[b])`. -/
def swapAt {ι α : Type} [DecidableEq ι] (p : ι → α) (a b : ι) : ι → α :=
  Function.update (Function.update p a (p b)) b (p a)

/-- The 8×8-tile swizzle of `swizzle.cpp` (`swizzle(RGBA** p, bool)`),
acting on a buffer `p : ι → α` through the reference map `addr`:
rotate every foursome of the table (forward or reverse), then apply the
four self-inverse pair swaps. -/
def swizzleCore {ι α : Type} [DecidableEq ι] (addr : Fin 64 → ι)
    (reverse : Bool) (p : ι → α) : ι → α :=
  let p1 := swizzleTable.foldl
    (fun q e =>
      if reverse then
        rotRev q (addr e.1) (addr e.2.1) (addr e.2.2.1) (addr e.2.2.2)
      else
        rotFwd q (addr e.1) (addr e.2.1) (addr e.2.2.1) (addr e.2.2.2))
    p
  swapAt (swapAt (swapAt (swapAt p1
    (addr 12) (addr 18)) (addr 13) (addr 19))
    (addr 44) (addr 50)) (addr 45) (addr 51)

/-- The reference map of `swizzle(Tex3DS::Image&, bool)`:
`refs[j1*8 + i1]` points at `pixels[(j+j1)*stride + (i+i1)]` when
`j + j1 < h ∧ i + i1 < w`, and at the scratch pixel (index `stride * h`,
one past the buffer) otherwise. -/
def tileAddr (stride w h j i : Nat) (k : Fin 64) : Nat :=
  if j + k.val / 8 < h ∧ i + k.val % 8 < w then
    (j + k.val / 8) * stride + (i + k.val % 8)
  else stride * h

/-- The tile-origin iteration of the image swizzle loops
(`for j in 0,8,… < h; for i in 0,8,… < w`), in iteration order. -/
def tileCoords (h w : Nat) : List (Nat × Nat) :=
  (List.range ((h + 7) / 8)).flatMap fun tj =>
    (List.range ((w + 7) / 8)).map fun ti => (8 * tj, 8 * ti)

/-- Swizzle every tile whose origin is in `l`, in order. -/
def swizzleTiles {α : Type} (stride w h : Nat) (l : List (Nat × Nat))
    (reverse : Bool) (p : Nat → α) : Nat → α :=
  l.foldl (fun q ji => swizzleCore (tileAddr stride w h ji.1 ji.2) reverse q) p

/-- The image swizzle of `swizzle.cpp` (`swizzle(Tex3DS::Image&, bool)`)
on the flat pixel buffer. -/
def swizzleBuf {α : Type} (stride w h : Nat) (reverse : Bool)
    (p : Nat → α) : Nat → α :=
  swizzleTiles stride w h (tileCoords h w) reverse p

/-- The image swizzle as an `Image` transformation (the C++ routine
mutates the image in place). -/
def swizzleImage {α : Type} (img : Image α) (reverse : Bool) : Image α :=
  { img with
    pixels := swizzleBuf img.stride img.w img.h reverse img.pixels }

/-- The permutation of the 64 tile-local positions realized by one tile
pass: the tile operation applied to the identity reference assignment. -/
def tilePerm (reverse : Bool) : Fin 64 → Fin 64 :=
  swizzleCore id reverse id

/-- A tile origin `c = (j, i)` that fully fits the canvas: both
coordinates are multiples of 8 and the whole 8×8 tile is in bounds. -/
def alignedTile (w h : Nat) (c : Nat × Nat) : Prop :=
  c.1 % 8 = 0 ∧ c.2 % 8 = 0 ∧ c.1 + 8 ≤ h ∧ c.2 + 8 ≤ w

/-- The index map realized by one tile pass on the flat buffer. -/
def tileG (stride w h : Nat) (c : Nat × Nat) (rev : Bool) : Nat → Nat :=
  swizzleCore (tileAddr stride w h c.1 c.2) rev id

/-- The index map realized by swizzling all tiles in `l`. -/
def compMaps (stride w h : Nat) (l : List (Nat × Nat)) (rev : Bool) :
    Nat → Nat :=
  l.foldr (fun c acc => tileG stride w h c rev ∘ acc) id

/-- Modelled from the spec: `compressionHeader(result, type, len)`
(compress.h is not in the provided sources).  Spec §3/§4.5/§6: the
envelope starts with a codec tag byte (0x00 for "none") followed by the
uncompressed length in a 3-byte little-endian field. -/
def compressionHeader (buf : List Nat) (tag : Nat) (len : Nat) : List Nat :=
  buf ++ [tag % 256, len % 256, len / 256 % 256, len / 65536 % 256]

/-- `compressNone` from tex3ds.cpp: append the compression header with
tag `0x00` and the uncompressed length, append the data, then pad the
buffer to a 4-byte boundary (`resize((size + 3) & ~0x3)`, which appends
value-initialized zero bytes). -/
def compressNone (src : List Nat) : List Nat :=
  let result := compressionHeader [] 0x00 src.length
  let result := result ++ src
  if result.length % 4 ≠ 0 then
    result ++ List.replicate ((result.length + 3) / 4 * 4 - result.length) 0
  else result

/-- `compressAuto` from tex3ds.cpp: run the codecs in the fixed order
none, lzss, lz11, huff, rle and keep `best` via
`if (best.empty() || (!output.empty() && output.size() < best.size()))
best.swap(output)`.  The `printf` of the winning codec name is omitted. -/
def compressAuto (lzssEncode lz11Encode huffEncode rleEncode :
    List Nat → List Nat) (src : List Nat) : List Nat :=
  let compress_funcs : List (List Nat → List Nat) :=
    [compressNone, lzssEncode, lz11Encode, huffEncode, rleEncode]
  compress_funcs.foldl
    (fun best compress =>
      let output := compress src
      if best = [] ∨ (output ≠ [] ∧ output.length < best.length) then output
      else best)
    []

/-- The claim's selection rule, stated from the spec's words (§4.5): keep
the first non-empty result; afterwards replace the kept result only with
a strictly smaller non-empty result, so size ties keep the
earlier-tried codec's result. -/
def claimImprove (best : List Nat) : List (List Nat) → List Nat
  | [] => best
  | output :: rest =>
      claimImprove
        (if output ≠ [] ∧ output.length < best.length then output else best)
        rest

/-- The claim's selector over the ordered list of codec results: skip
results until the first non-empty one, keep it, then apply the strict
improvement rule to the rest. -/
def claimSelect : List (List Nat) → List Nat
  | [] => []
  | output :: rest => if output = [] then claimSelect rest
      else claimImprove output rest

/-- `Invocation::write_image_data` from tex3ds.cpp: select the compressor
by `params.compression_format`, run it over the encoded payload, fail
with `CompressionFailure` if it produced an empty buffer, otherwise
output the buffer.  The four lossless codecs are arbitrary functions. -/
def write_image_data (lzssEncode lz11Encode huffEncode rleEncode :
    List Nat → List Nat) (compression_format : CompressionFormat)
    (image_data : List Nat) : Except TexError (List Nat) :=
  let compress : List Nat → List Nat :=
    match compression_format with
    | .COMPRESSION_NONE => compressNone
    | .COMPRESSION_LZ10 => lzssEncode
    | .COMPRESSION_LZ11 => lz11Encode
    | .COMPRESSION_RLE => rleEncode
    | .COMPRESSION_HUFF => huffEncode
    | .COMPRESSION_AUTO =>
        compressAuto lzssEncode lz11Encode huffEncode rleEncode
  let buffer := compress image_data
  if buffer = [] then .error .CompressionFailure
  else .ok buffer

/-- The encoder routines of `encode.h`, as opaque tags. -/
inductive EncoderKind where
  | rgba8888 | rgb888 | rgba5551 | rgb565 | rgba4444
  | la88 | hilo88 | l8 | a8 | la44 | l4 | a4
  | etc1 | etc1a4
deriving DecidableEq, Repr

/-- The `switch (params.process_format)` of `Invocation::process_image`
selecting the per-tile processing routine. -/
def processEncoder : ProcessFormat → EncoderKind
  | .RGBA8888 => .rgba8888
  | .RGB888 => .rgb888
  | .RGBA5551 => .rgba5551
  | .RGB565 => .rgb565
  | .RGBA4444 => .rgba4444
  | .AUTO_L8 => .la88
  | .LA88 => .la88
  | .HILO88 => .hilo88
  | .L8 => .l8
  | .A8 => .a8
  | .AUTO_L4 => .la44
  | .LA44 => .la44
  | .L4 => .l4
  | .A4 => .a4
  | .ETC1 => .etc1
  | .AUTO_ETC1 => .etc1a4
  | .ETC1A4 => .etc1a4

/-- External collaborators: the four lossless codecs and the per-tile
encoder (both outside the provided sources; arbitrary functions). -/
structure EncodeEnv where
  lzssEncode : List Nat → List Nat
  lz11Encode : List Nat → List Nat
  huffEncode : List Nat → List Nat
  rleEncode : List Nat → List Nat
  encodeTile : EncoderKind → List RGBA → List Nat

/-- The 64 pixels handed to the work unit of the tile at `(j, i)`
(`img.pixels.data() + (j*width + i)` read with row stride `width`). -/
def workTile (img : Image RGBA) (j i : Nat) : List RGBA :=
  (List.range 64).map fun k =>
    img.pixels ((j + k / 8) * img.w + (i + k % 8))

/-- `Invocation::process_image` from tex3ds.cpp: select the per-tile
routine from the format, swizzle the canvas unless the format is ETC1 or
ETC1A4, then process each 8×8 tile in row-major order, concatenating the
per-tile results into the payload.  The middle component of the result
records the evaluated swizzle-branch condition
(`process_format != ETC1 && process_format != ETC1A4`). -/
def process_image (env : EncodeEnv) (process_format : ProcessFormat)
    (img : Image RGBA) : Image RGBA × Bool × List Nat :=
  let process := processEncoder process_format
  let doSwizzle : Bool :=
    process_format != .ETC1 && process_format != .ETC1A4
  let img2 := if doSwizzle then swizzleImage img false else img
  let payload := (tileCoords img2.h img2.w).foldl
    (fun acc ji => acc ++ env.encodeTile process (workTile img2 ji.1 ji.2))
    []
  (img2, doSwizzle, payload)

/-- The `texture_params` byte packed by `Invocation::write_tex3ds_header`:
`w = log(output_width)/log(2)` and `h = log(output_height)/log(2)`
(exact for the power-of-two sizes the normalizer produces; modelled by
`Nat.log 2`), then `(w - 3) << 0 | (h - 3) << 3` stored in a `uint8_t`. -/
def textureParams (output_width output_height : Nat) : Nat :=
  ((Nat.log 2 output_width - 3) |||
    ((Nat.log 2 output_height - 3) <<< 3)) % 256

/-- Invocation parameters from `tex3ds.h` (`struct Params`; the
`etc1_quality` knob only parameterizes the external block compressor and
is omitted). -/
structure Params where
  output_path : String
  process_format : ProcessFormat
  compression_format : CompressionFormat
  input_img : Image RGBA

/-- The data written by `write_output_data`: the header fields emitted by
`write_tex3ds_header` followed by the compressed payload. -/
structure OutputData where
  subCount : Nat
  textureParamsByte : Nat
  formatTag : ProcessFormat
  mipmapCount : Nat
  subs : List SubImage
  payload : List Nat

/-- `Invocation::write_output_data`: nothing is written when no output
path was given; otherwise the header and the compressed image data. -/
def write_output_data (env : EncodeEnv) (p : Params)
    (subs : List SubImage) (ow oh : Nat) (payload : List Nat) :
    Except TexError (Option OutputData) :=
  if p.output_path = "" then .ok none
  else do
    let data ← write_image_data env.lzssEncode env.lz11Encode
      env.huffEncode env.rleEncode p.compression_format payload
    .ok (some ⟨subs.length, textureParams ow oh, p.process_format, 0,
      subs, data⟩)

/-- `Invocation::go` from tex3ds.cpp: normalize the input image, process
it, then write the output data.  A thrown error aborts the remaining
stages (modelled by `Except` bind). -/
def go (env : EncodeEnv) (p : Params) : Except TexError (Option OutputData) := do
  let (img, subs, ow, oh) ← load_image p.input_img
  let res := process_image env p.process_format img
  write_output_data env p subs ow oh res.2.2

/-- A concrete 1×1 input image whose single pixel is nonzero. -/
def imgC1 : Image RGBA :=
  { mkImage 1 1 with pixels := fun n => if n = 0 then ⟨1, 2, 3, 4⟩ else rgbaZero }

/-- A concrete 3×3 input image (pixel values irrelevant). -/
def imgC9 : Image RGBA := mkImage 3 3

/-- A concrete 10×10 input image for the container-shape claim. -/
def imgC4 : Image RGBA := mkImage 10 10

/-- A concrete oversized (1025-wide) input image. -/
def imgC5 : Image RGBA := mkImage 1025 1

/-- A trivial instantiation of the external collaborators. -/
def envTrivial : EncodeEnv :=
  ⟨fun _ => [], fun _ => [], fun _ => [], fun _ => [], fun _ _ => []⟩

/-- Concrete invocation parameters feeding the oversized image. -/
def paramsC5 : Params := ⟨"out.t3x", .RGBA8888, .COMPRESSION_AUTO, imgC5⟩

/-! ## Theorems -/

/-- `Nat.clog 2` pinned down between two adjacent powers of two. -/
theorem clog2_eq (x k : Nat) (h1 : 2 ^ k < x) (h2 : x ≤ 2 ^ (k + 1)) :
    Nat.clog 2 x = k + 1 :=
  le_antisymm ((Nat.le_pow_iff_clog_le (by norm_num)).mp h2)
    ((Nat.pow_lt_iff_lt_clog (by norm_num)).mp h1)

/-- `potCeil` evaluated between two adjacent powers of two. -/
theorem potCeil_eq_pow (x k : Nat) (h8 : 8 ≤ x) (h1 : 2 ^ k < x)
    (h2 : x ≤ 2 ^ (k + 1)) : potCeil x = 2 ^ (k + 1) := by
  have : ¬ x < 8 := by omega
  simp [potCeil, this, clog2_eq x k h1 h2]

/-- C3, small-argument part: `potCeil` clamps everything `≤ 8` to 8. -/
theorem potCeil_below (x : Nat) (h : x ≤ 8) : potCeil x = 8 := by
  rcases Nat.lt_or_ge x 8 with hx | hx
  · simp [potCeil, hx]
  · have hx8 : x = 8 := by omega
    subst hx8
    exact potCeil_eq_pow 8 2 (by norm_num) (by norm_num) (by norm_num)

/-- **C3**: `potCeil(x)` returns 8 for every `x ≤ 8`; for `8 < x` (within
the 1024 hardware maximum) it returns the smallest power of two that is
`≥ x`: the result is a power of two, it is `≥ x`, and it is `≤` every
power of two that is `≥ x`. -/
theorem c3_potCeil_spec (x : Nat) (hmax : x ≤ 1024) :
    (x ≤ 8 → potCeil x = 8) ∧
    (8 < x → (∃ k, potCeil x = 2 ^ k) ∧ x ≤ potCeil x ∧
      ∀ k, x ≤ 2 ^ k → potCeil x ≤ 2 ^ k) := by
  constructor
  · exact potCeil_below x
  · intro hx
    have hlt : ¬ x < 8 := by omega
    refine ⟨⟨Nat.clog 2 x, by simp [potCeil, hlt]⟩, ?_, ?_⟩
    · simp only [potCeil, hlt, if_false]
      exact Nat.le_pow_clog (by norm_num) x
    · intro k hk
      simp only [potCeil, hlt, if_false]
      exact Nat.pow_le_pow_right (by norm_num)
        ((Nat.le_pow_iff_clog_le (by norm_num)).mp hk)

/-- Witness for C3 at the spec's own examples `x = 9, 256, 257`. -/
theorem c3_potCeil_spec_witness :
    (9 : Nat) ≤ 1024 ∧ (257 : Nat) ≤ 1024 ∧
    potCeil 9 = 16 ∧ potCeil 256 = 256 ∧ potCeil 257 = 512 ∧
    (8 < 257 → (∃ k, potCeil 257 = 2 ^ k) ∧ 257 ≤ potCeil 257 ∧
      ∀ k, 257 ≤ 2 ^ k → potCeil 257 ≤ 2 ^ k) :=
  ⟨by decide, by decide,
    potCeil_eq_pow 9 3 (by norm_num) (by norm_num) (by norm_num),
    potCeil_eq_pow 256 7 (by norm_num) (by norm_num) (by norm_num),
    potCeil_eq_pow 257 8 (by norm_num) (by norm_num) (by norm_num),
    (c3_potCeil_spec 257 (by decide)).2⟩

set_option maxRecDepth 100000 in
/-- Decidable core of C7: for every bit depth `1 ≤ b ≤ 8` and quantum
`q ≤ 255`, the quantize round-trip error bound and idempotence hold.
Checked by evaluation over all 8 × 256 cases. -/
theorem quantize_cases :
    ∀ b < 8, ∀ q < 256,
      Nat.dist (quantize (b + 1) q) q * (2 ^ (b + 1) - 1) ≤ 255 ∧
      quantize (b + 1) (quantize (b + 1) q) = quantize (b + 1) q := by
  decide

/-- **C7**: for every bit depth `b` used by the pixel formats
(`1 ≤ b ≤ 8`) and every quantum `q ∈ [0, 255]`, `quantize b q` differs
from `q` by at most `255 / (2^b − 1)` (stated exactly:
`|quantize b q − q| · (2^b − 1) ≤ 255`), and `quantize b` is idempotent. -/
theorem c7_quantize_round_trip (b q : Nat) (hb : 1 ≤ b) (hb8 : b ≤ 8)
    (hq : q ≤ 255) :
    Nat.dist (quantize b q) q * (2 ^ b - 1) ≤ 255 ∧
    quantize b (quantize b q) = quantize b q := by
  obtain ⟨b', rfl⟩ : ∃ b', b = b' + 1 := ⟨b - 1, by omega⟩
  exact quantize_cases b' (by omega) q (by omega)

/-- Witness for C7 at `b = 4`, `q = 200`. -/
theorem c7_quantize_round_trip_witness :
    (1 : Nat) ≤ 4 ∧ (4 : Nat) ≤ 8 ∧ (200 : Nat) ≤ 255 ∧
    (Nat.dist (quantize 4 200) 200 * (2 ^ 4 - 1) ≤ 255 ∧
      quantize 4 (quantize 4 200) = quantize 4 200) :=
  ⟨by decide, by decide, by decide,
    c7_quantize_round_trip 4 200 (by decide) (by decide) (by decide)⟩

/-- **C1** (code bug): for the 1×1 input image `imgC1`, `load_image`
expands the canvas to 8×8 (so the padded size differs from the input
size), but the row-copy loop copies `img.stride * r` pixels for row `r`
— i.e. zero pixels for row 0 — so the single source pixel `(0,0)` never
reaches destination row 0: the destination keeps its freshly allocated
zero value, contradicting the claim that every source row is copied
intact to the same row of the new canvas. -/
theorem c1_row_copy_code_bug :
    potCeil imgC1.w = 8 ∧
    (load_image imgC1).map (fun res => res.1.pixels 0) = .ok rgbaZero ∧
    imgC1.pixels 0 = ⟨1, 2, 3, 4⟩ ∧
    rgbaZero ≠ (⟨1, 2, 3, 4⟩ : RGBA) := by
  refine ⟨by decide, ?_, by decide, by decide⟩
  rfl

theorem rotFwd_comp {ι α β : Type} [DecidableEq ι] (f : α → β) (g : ι → α)
    (a b c d : ι) : rotFwd (f ∘ g) a b c d = f ∘ rotFwd g a b c d := by
  funext x
  simp only [rotFwd, Function.comp_apply, Function.update_apply,
    apply_ite f]

theorem rotRev_comp {ι α β : Type} [DecidableEq ι] (f : α → β) (g : ι → α)
    (a b c d : ι) : rotRev (f ∘ g) a b c d = f ∘ rotRev g a b c d := by
  funext x
  simp only [rotRev, Function.comp_apply, Function.update_apply,
    apply_ite f]

theorem swapAt_comp {ι α β : Type} [DecidableEq ι] (f : α → β) (g : ι → α)
    (a b : ι) : swapAt (f ∘ g) a b = f ∘ swapAt g a b := by
  funext x
  simp only [swapAt, Function.comp_apply, Function.update_apply,
    apply_ite f]

theorem foldl_rot_comp {ι α β : Type} [DecidableEq ι] (addr : Fin 64 → ι)
    (rev : Bool) (f : α → β)
    (t : List (Fin 64 × Fin 64 × Fin 64 × Fin 64)) (g : ι → α) :
    t.foldl (fun q e =>
        if rev then
          rotRev q (addr e.1) (addr e.2.1) (addr e.2.2.1) (addr e.2.2.2)
        else
          rotFwd q (addr e.1) (addr e.2.1) (addr e.2.2.1) (addr e.2.2.2))
      (f ∘ g) =
    f ∘ t.foldl (fun q e =>
        if rev then
          rotRev q (addr e.1) (addr e.2.1) (addr e.2.2.1) (addr e.2.2.2)
        else
          rotFwd q (addr e.1) (addr e.2.1) (addr e.2.2.1) (addr e.2.2.2))
      g := by
  induction t generalizing g with
  | nil => rfl
  | cons e t ih =>
      simp only [List.foldl_cons]
      cases rev
      · simp only [Bool.false_eq_true, if_false]
        rw [rotFwd_comp]
        exact ih _
      · simp only [if_true]
        rw [rotRev_comp]
        exact ih _

theorem swizzleCore_comp {ι α β : Type} [DecidableEq ι]
    (addr : Fin 64 → ι) (rev : Bool) (f : α → β) (g : ι → α) :
    swizzleCore addr rev (f ∘ g) = f ∘ swizzleCore addr rev g := by
  unfold swizzleCore
  dsimp only
  rw [foldl_rot_comp, swapAt_comp, swapAt_comp, swapAt_comp, swapAt_comp]

/-- `swizzleCore` applied to any buffer is precomposition with the index
map it realizes. -/
theorem swizzleCore_eq_comp {ι α : Type} [DecidableEq ι]
    (addr : Fin 64 → ι) (rev : Bool) (p : ι → α) :
    swizzleCore addr rev p = p ∘ swizzleCore addr rev id := by
  have h := swizzleCore_comp addr rev p (id : ι → ι)
  simpa using h

theorem rotFwd_off {ι α : Type} [DecidableEq ι] (p : ι → α) (a b c d x : ι)
    (ha : x ≠ a) (hb : x ≠ b) (hc : x ≠ c) (hd : x ≠ d) :
    rotFwd p a b c d x = p x := by
  simp [rotFwd, Function.update_apply, ha, hb, hc, hd]

theorem rotRev_off {ι α : Type} [DecidableEq ι] (p : ι → α) (a b c d x : ι)
    (ha : x ≠ a) (hb : x ≠ b) (hc : x ≠ c) (hd : x ≠ d) :
    rotRev p a b c d x = p x := by
  simp [rotRev, Function.update_apply, ha, hb, hc, hd]

theorem swapAt_off {ι α : Type} [DecidableEq ι] (p : ι → α) (a b x : ι)
    (ha : x ≠ a) (hb : x ≠ b) : swapAt p a b x = p x := by
  simp [swapAt, Function.update_apply, ha, hb]

theorem foldl_rot_off {ι α : Type} [DecidableEq ι] (addr : Fin 64 → ι)
    (rev : Bool) (t : List (Fin 64 × Fin 64 × Fin 64 × Fin 64)) (p : ι → α)
    (x : ι) (hx : ∀ k : Fin 64, x ≠ addr k) :
    t.foldl (fun q e =>
        if rev then
          rotRev q (addr e.1) (addr e.2.1) (addr e.2.2.1) (addr e.2.2.2)
        else
          rotFwd q (addr e.1) (addr e.2.1) (addr e.2.2.1) (addr e.2.2.2))
      p x = p x := by
  induction t generalizing p with
  | nil => rfl
  | cons e t ih =>
      rw [List.foldl_cons, ih]
      cases rev
      · simp only [Bool.false_eq_true, if_false]
        exact rotFwd_off p _ _ _ _ x (hx _) (hx _) (hx _) (hx _)
      · simp only [if_true]
        exact rotRev_off p _ _ _ _ x (hx _) (hx _) (hx _) (hx _)

/-- A position that is not referenced by the tile is untouched by the
tile pass. -/
theorem swizzleCore_off {ι α : Type} [DecidableEq ι] (addr : Fin 64 → ι)
    (rev : Bool) (p : ι → α) (x : ι) (hx : ∀ k : Fin 64, x ≠ addr k) :
    swizzleCore addr rev p x = p x := by
  unfold swizzleCore
  rw [swapAt_off _ _ _ _ (hx 45) (hx 51), swapAt_off _ _ _ _ (hx 44) (hx 50),
    swapAt_off _ _ _ _ (hx 13) (hx 19), swapAt_off _ _ _ _ (hx 12) (hx 18),
    foldl_rot_off addr rev _ p x hx]

theorem rotFwd_addr_comp {ι α : Type} [DecidableEq ι] {addr : Fin 64 → ι}
    (hinj : Function.Injective addr) (p : ι → α) (a b c d : Fin 64) :
    rotFwd p (addr a) (addr b) (addr c) (addr d) ∘ addr =
      rotFwd (p ∘ addr) a b c d := by
  funext k
  simp only [rotFwd, Function.comp_apply, Function.update_apply, hinj.eq_iff]

theorem rotRev_addr_comp {ι α : Type} [DecidableEq ι] {addr : Fin 64 → ι}
    (hinj : Function.Injective addr) (p : ι → α) (a b c d : Fin 64) :
    rotRev p (addr a) (addr b) (addr c) (addr d) ∘ addr =
      rotRev (p ∘ addr) a b c d := by
  funext k
  simp only [rotRev, Function.comp_apply, Function.update_apply, hinj.eq_iff]

theorem swapAt_addr_comp {ι α : Type} [DecidableEq ι] {addr : Fin 64 → ι}
    (hinj : Function.Injective addr) (p : ι → α) (a b : Fin 64) :
    swapAt p (addr a) (addr b) ∘ addr = swapAt (p ∘ addr) a b := by
  funext k
  simp only [swapAt, Function.comp_apply, Function.update_apply, hinj.eq_iff]

theorem foldl_rot_addr_comp {ι α : Type} [DecidableEq ι] {addr : Fin 64 → ι}
    (hinj : Function.Injective addr) (rev : Bool)
    (t : List (Fin 64 × Fin 64 × Fin 64 × Fin 64)) (p : ι → α) :
    (t.foldl (fun q e =>
        if rev then
          rotRev q (addr e.1) (addr e.2.1) (addr e.2.2.1) (addr e.2.2.2)
        else
          rotFwd q (addr e.1) (addr e.2.1) (addr e.2.2.1) (addr e.2.2.2))
      p) ∘ addr =
    t.foldl (fun q e =>
        if rev then rotRev q e.1 e.2.1 e.2.2.1 e.2.2.2
        else rotFwd q e.1 e.2.1 e.2.2.1 e.2.2.2)
      (p ∘ addr) := by
  induction t generalizing p with
  | nil => rfl
  | cons e t ih =>
      rw [List.foldl_cons, List.foldl_cons, ih]
      cases rev
      · simp only [Bool.false_eq_true, if_false]
        rw [rotFwd_addr_comp hinj]
      · simp only [if_true]
        rw [rotRev_addr_comp hinj]

theorem swizzleCore_addr_comp {ι α : Type} [DecidableEq ι]
    {addr : Fin 64 → ι} (hinj : Function.Injective addr) (rev : Bool)
    (p : ι → α) :
    swizzleCore addr rev p ∘ addr = swizzleCore id rev (p ∘ addr) := by
  unfold swizzleCore
  rw [swapAt_addr_comp hinj, swapAt_addr_comp hinj, swapAt_addr_comp hinj,
    swapAt_addr_comp hinj, foldl_rot_addr_comp hinj]
  simp only [id_eq]

/-- Action of one tile pass on the referenced positions: position
`addr k` receives the value at `addr (tilePerm rev k)`. -/
theorem swizzleCore_id_on {ι : Type} [DecidableEq ι] {addr : Fin 64 → ι}
    (hinj : Function.Injective addr) (rev : Bool) (k : Fin 64) :
    swizzleCore addr rev id (addr k) = addr (tilePerm rev k) := by
  have h := congrFun (swizzleCore_addr_comp hinj rev (id : ι → ι)) k
  simp only [Function.comp_apply] at h
  have h2 : swizzleCore (id : Fin 64 → Fin 64) rev (addr ∘ id) =
      addr ∘ swizzleCore (id : Fin 64 → Fin 64) rev id :=
    swizzleCore_comp id rev addr id
  rw [Function.comp_id] at h2
  rw [h, Function.id_comp, h2]
  rfl

/-- For an aligned tile the scratch branch of `tileAddr` is dead. -/
theorem tileAddr_aligned (stride w h : Nat) {c : Nat × Nat}
    (hal : alignedTile w h c) (k : Fin 64) :
    tileAddr stride w h c.1 c.2 k =
      (c.1 + k.val / 8) * stride + (c.2 + k.val % 8) := by
  have hk := k.isLt
  obtain ⟨-, -, h1, h2⟩ := hal
  exact if_pos ⟨by omega, by omega⟩

/-- Division with remainder is unique: matching row/column split. -/
theorem mul_add_inj {s A B A' B' : Nat} (hB : B < s) (hB' : B' < s)
    (h : A * s + B = A' * s + B') : A = A' ∧ B = B' := by
  have hBB : B = B' := by
    have hm := congrArg (· % s) h
    simpa [Nat.mul_add_mod_of_lt hB, Nat.mul_add_mod_of_lt hB'] using hm
  have hA : A * s = A' * s := by omega
  exact ⟨Nat.eq_of_mul_eq_mul_right (by omega) hA, hBB⟩

/-- Distinct aligned tiles reference distinct positions, and each
aligned tile's reference map is injective. -/
theorem tileAddr_inj_aligned {stride w h : Nat} (hws : w ≤ stride)
    {c c' : Nat × Nat} (hal : alignedTile w h c) (hal' : alignedTile w h c')
    {k k' : Fin 64}
    (heq : tileAddr stride w h c.1 c.2 k = tileAddr stride w h c'.1 c'.2 k') :
    c = c' ∧ k = k' := by
  rw [tileAddr_aligned stride w h hal k,
    tileAddr_aligned stride w h hal' k'] at heq
  have hk := k.isLt
  have hk' := k'.isLt
  obtain ⟨hj8, hi8, hjh, hiw⟩ := hal
  obtain ⟨hj8', hi8', hjh', hiw'⟩ := hal'
  obtain ⟨hrow, hcol⟩ := mul_add_inj
    (by omega : c.2 + k.val % 8 < stride)
    (by omega : c'.2 + k'.val % 8 < stride) heq
  have hc1 : c.1 = c'.1 ∧ k.val / 8 = k'.val / 8 := by omega
  have hc2 : c.2 = c'.2 ∧ k.val % 8 = k'.val % 8 := by omega
  refine ⟨Prod.ext hc1.1 hc2.1, Fin.ext ?_⟩
  omega

theorem tileAddr_injective {stride w h : Nat} (hws : w ≤ stride)
    {c : Nat × Nat} (hal : alignedTile w h c) :
    Function.Injective (tileAddr stride w h c.1 c.2) :=
  fun _ _ hkk => (tileAddr_inj_aligned hws hal hal hkk).2

theorem swizzleTiles_eq_comp {α : Type} (stride w h : Nat)
    (l : List (Nat × Nat)) (rev : Bool) (p : Nat → α) :
    swizzleTiles stride w h l rev p = p ∘ compMaps stride w h l rev := by
  induction l generalizing p with
  | nil => rfl
  | cons c cs ih =>
      show swizzleTiles stride w h cs rev
          (swizzleCore (tileAddr stride w h c.1 c.2) rev p) = _
      rw [ih, swizzleCore_eq_comp]
      rfl

set_option maxRecDepth 1000000 in
/-- The reverse tile pass undoes the forward tile pass on the 64
tile-local positions (checked by evaluating the table). -/
theorem tilePerm_inv : ∀ k : Fin 64, tilePerm false (tilePerm true k) = k := by
  decide

/-- Every tile origin enumerated by the loops of an 8-aligned canvas is
a fully in-bounds aligned tile. -/
theorem tileCoords_aligned {h w : Nat} (h8h : 8 ∣ h) (h8w : 8 ∣ w)
    {c : Nat × Nat} (hc : c ∈ tileCoords h w) : alignedTile w h c := by
  simp only [tileCoords, List.mem_flatMap, List.mem_map,
    List.mem_range] at hc
  obtain ⟨tj, htj, ti, hti, rfl⟩ := hc
  obtain ⟨mh, rfl⟩ := h8h
  obtain ⟨mw, rfl⟩ := h8w
  exact ⟨by omega, by omega, by omega, by omega⟩

/-- The loop enumerates each tile origin exactly once. -/
theorem tileCoords_nodup (h w : Nat) : (tileCoords h w).Nodup := by
  apply List.nodup_flatMap.mpr
  constructor
  · intro tj _
    exact (List.nodup_range _).map fun a b hab => by
      have := congrArg Prod.snd hab
      simp only at this
      omega
  · apply List.Pairwise.imp ?_ (List.nodup_range _)
    intro tj tj' hne
    intro x hx hx'
    simp only [List.mem_map, List.mem_range] at hx hx'
    obtain ⟨ti, -, rfl⟩ := hx
    obtain ⟨ti', -, h2⟩ := hx'
    have := congrArg Prod.fst h2
    simp only at this
    exact hne (by omega)

/-- The position of pixel `(r, col)` belongs to the tile at origin
`(8*(r/8), 8*(col/8))`, which the loops visit. -/
theorem tile_of_pos {h w r col : Nat} (h8h : 8 ∣ h) (h8w : 8 ∣ w)
    (hr : r < h) (hcol : col < w) :
    (8 * (r / 8), 8 * (col / 8)) ∈ tileCoords h w := by
  simp only [tileCoords, List.mem_flatMap, List.mem_map, List.mem_range]
  obtain ⟨mh, rfl⟩ := h8h
  obtain ⟨mw, rfl⟩ := h8w
  exact ⟨r / 8, by omega, ⟨col / 8, by omega, rfl⟩⟩

/-- A position referenced by no tile of `l` is fixed by the composite
index map. -/
theorem compMaps_off (stride w h : Nat) (l : List (Nat × Nat)) (rev : Bool)
    (x : Nat)
    (hx : ∀ c ∈ l, ∀ k : Fin 64, x ≠ tileAddr stride w h c.1 c.2 k) :
    compMaps stride w h l rev x = x := by
  induction l with
  | nil => rfl
  | cons c cs ih =>
      show tileG stride w h c rev (compMaps stride w h cs rev x) = x
      rw [ih fun c' hc' => hx c' (List.mem_cons_of_mem c hc')]
      exact swizzleCore_off _ rev id x
        fun k => hx c (List.mem_cons_self c cs) k

/-- Action of the composite index map on a referenced position: only the
owning tile acts, through `tilePerm`. -/
theorem compMaps_on {stride w h : Nat} (hws : w ≤ stride)
    (l : List (Nat × Nat)) (rev : Bool)
    (hal : ∀ c ∈ l, alignedTile w h c) (hnd : l.Nodup)
    {c : Nat × Nat} (hc : c ∈ l) (k : Fin 64) :
    compMaps stride w h l rev (tileAddr stride w h c.1 c.2 k) =
      tileAddr stride w h c.1 c.2 (tilePerm rev k) := by
  induction l with
  | nil => cases hc
  | cons c' cs ih =>
      have hnd' : c' ∉ cs ∧ cs.Nodup := by
        simpa [List.nodup_cons] using hnd
      show tileG stride w h c' rev
        (compMaps stride w h cs rev (tileAddr stride w h c.1 c.2 k)) = _
      rcases List.mem_cons.mp hc with rfl | hcs
      · rw [compMaps_off]
        · exact swizzleCore_id_on
            (tileAddr_injective hws (hal c (List.mem_cons_self c cs))) rev k
        · intro c'' hc'' k' hne
          have huniq := tileAddr_inj_aligned hws
            (hal c'' (List.mem_cons_of_mem c hc''))
            (hal c (List.mem_cons_self c cs)) hne.symm
          exact hnd'.1 (huniq.1 ▸ hc'')
      · rw [ih (fun c'' hc'' => hal c'' (List.mem_cons_of_mem c' hc''))
          hnd'.2 hcs]
        apply swizzleCore_off
        intro k' hne
        have huniq := tileAddr_inj_aligned hws
          (hal c' (List.mem_cons_self c' cs))
          (hal c (List.mem_cons_of_mem c' hcs)) hne.symm
        exact hnd'.1 (huniq.1 ▸ hcs)

/-- Unswizzling after swizzling restores every position of the flat
buffer of an 8-aligned canvas. -/
theorem swizzleBuf_inv {α : Type} (stride w h : Nat) (hws : w ≤ stride)
    (h8w : 8 ∣ w) (h8h : 8 ∣ h) (p : Nat → α) :
    swizzleBuf stride w h true (swizzleBuf stride w h false p) = p := by
  unfold swizzleBuf
  rw [swizzleTiles_eq_comp, swizzleTiles_eq_comp]
  funext x
  show p (compMaps stride w h (tileCoords h w) false
    (compMaps stride w h (tileCoords h w) true x)) = p x
  congr 1
  have hal : ∀ c ∈ tileCoords h w, alignedTile w h c :=
    fun c hc => tileCoords_aligned h8h h8w hc
  by_cases hx : ∃ c ∈ tileCoords h w, ∃ k : Fin 64,
    tileAddr stride w h c.1 c.2 k = x
  · obtain ⟨c, hc, k, rfl⟩ := hx
    rw [compMaps_on hws _ true hal (tileCoords_nodup h w) hc k,
      compMaps_on hws _ false hal (tileCoords_nodup h w) hc (tilePerm true k),
      tilePerm_inv k]
  · push_neg at hx
    rw [compMaps_off _ _ _ _ true x fun c hc k => (hx c hc k).symm,
      compMaps_off _ _ _ _ false x fun c hc k => (hx c hc k).symm]

/-- **C2**: for every canvas whose width and height are multiples of 8
(with the data-model invariant `stride ≥ w`), unswizzling after
swizzling restores the canvas pixel-for-pixel; moreover each single
swizzle pass (forward or reverse) only moves pixel values around inside
their own 8×8 tile: the pixel at `(r, col)` after the pass is the input
pixel of some position `(r', col')` in the same tile.  (Together with
the first part this makes each pass a permutation of the tile's
positions that never alters pixel values.) -/
theorem c2_swizzle_involution (img : Image RGBA)
    (h8w : 8 ∣ img.w) (h8h : 8 ∣ img.h) (hws : img.w ≤ img.stride) :
    swizzleImage (swizzleImage img false) true = img ∧
    ∀ (rev : Bool) (r col : Nat), r < img.h → col < img.w →
      ∃ r' col', r' < img.h ∧ col' < img.w ∧
        r' / 8 = r / 8 ∧ col' / 8 = col / 8 ∧
        (swizzleImage img rev).pixels (r * img.stride + col) =
          img.pixels (r' * img.stride + col') := by
  obtain ⟨s, w, h, p⟩ := img
  simp only at h8w h8h hws
  constructor
  · exact congrArg (Image.mk s w h) (swizzleBuf_inv s w h hws h8w h8h p)
  · intro rev r col hr hcol
    simp only at hr hcol ⊢
    have hal : ∀ c ∈ tileCoords h w, alignedTile w h c :=
      fun c hc => tileCoords_aligned h8h h8w hc
    have hc : (8 * (r / 8), 8 * (col / 8)) ∈ tileCoords h w :=
      tile_of_pos h8h h8w hr hcol
    have hkv : (r % 8) * 8 + col % 8 < 64 := by omega
    have haddr : tileAddr s w h (8 * (r / 8)) (8 * (col / 8)) ⟨_, hkv⟩ =
        r * s + col := by
      rw [tileAddr_aligned s w h (hal _ hc) ⟨_, hkv⟩]
      have e1 : 8 * (r / 8) + ((r % 8) * 8 + col % 8) / 8 = r := by omega
      have e2 : 8 * (col / 8) + ((r % 8) * 8 + col % 8) % 8 = col := by omega
      show (8 * (r / 8) + ((r % 8) * 8 + col % 8) / 8) * s +
        (8 * (col / 8) + ((r % 8) * 8 + col % 8) % 8) = r * s + col
      rw [e1, e2]
    have hval : (swizzleImage (Image.mk s w h p) rev).pixels
        (r * s + col) =
        p (tileAddr s w h (8 * (r / 8)) (8 * (col / 8))
          (tilePerm rev ⟨_, hkv⟩)) := by
      show swizzleBuf s w h rev p (r * s + col) = _
      rw [swizzleBuf, swizzleTiles_eq_comp, ← haddr]
      show p (compMaps s w h (tileCoords h w) rev
        (tileAddr s w h (8 * (r / 8)) (8 * (col / 8)) ⟨_, hkv⟩)) = _
      rw [compMaps_on hws _ rev hal (tileCoords_nodup h w) hc ⟨_, hkv⟩]
    obtain ⟨mh, hmh⟩ := h8h
    obtain ⟨mw, hmw⟩ := h8w
    have hlt := (tilePerm rev ⟨_, hkv⟩).isLt
    refine ⟨8 * (r / 8) + (tilePerm rev ⟨_, hkv⟩).val / 8,
      8 * (col / 8) + (tilePerm rev ⟨_, hkv⟩).val % 8,
      by omega, by omega, by omega, by omega, ?_⟩
    rw [hval, tileAddr_aligned s w h (hal _ hc) (tilePerm rev ⟨_, hkv⟩)]

/-- Witness for C2 at a concrete 8×8 canvas. -/
theorem c2_swizzle_involution_witness :
    ((8 : Nat) ∣ (mkImage 8 8).w ∧ (8 : Nat) ∣ (mkImage 8 8).h ∧
      (mkImage 8 8).w ≤ (mkImage 8 8).stride) ∧
    (swizzleImage (swizzleImage (mkImage 8 8) false) true = mkImage 8 8 ∧
      ∀ (rev : Bool) (r col : Nat),
        r < (mkImage 8 8).h → col < (mkImage 8 8).w →
        ∃ r' col', r' < (mkImage 8 8).h ∧ col' < (mkImage 8 8).w ∧
          r' / 8 = r / 8 ∧ col' / 8 = col / 8 ∧
          (swizzleImage (mkImage 8 8) rev).pixels
            (r * (mkImage 8 8).stride + col) =
            (mkImage 8 8).pixels (r' * (mkImage 8 8).stride + col')) :=
  ⟨⟨by decide, by decide, by decide⟩,
    c2_swizzle_involution (mkImage 8 8) (by decide) (by decide) (by decide)⟩

/-- The implementation's fold, once `best` is non-empty, is exactly the
strict-improvement rule. -/
theorem foldl_step_of_ne (best : List Nat) (l : List (List Nat))
    (h : best ≠ []) :
    l.foldl
      (fun best output =>
        if best = [] ∨ (output ≠ [] ∧ output.length < best.length) then output
        else best) best = claimImprove best l := by
  induction l generalizing best with
  | nil => rfl
  | cons o rest ih =>
      simp only [List.foldl_cons, claimImprove]
      by_cases ho : o ≠ [] ∧ o.length < best.length
      · rw [if_pos (Or.inr ho), if_pos ho]
        exact ih o ho.1
      · rw [if_neg (by simp [h, ho]), if_neg ho]
        exact ih best h

/-- The implementation's fold from the empty initial `best` computes the
claim's selector. -/
theorem foldl_step_eq_claimSelect (l : List (List Nat)) :
    l.foldl
      (fun best output =>
        if best = [] ∨ (output ≠ [] ∧ output.length < best.length) then output
        else best) [] = claimSelect l := by
  induction l with
  | nil => rfl
  | cons o rest ih =>
      rw [List.foldl_cons, if_pos (Or.inl rfl)]
      by_cases ho : o = []
      · subst ho
        simp only [claimSelect, if_pos rfl]
        exact ih
      · simp only [claimSelect]
        rw [if_neg ho]
        exact foldl_step_of_ne o rest ho

/-- The strict-improvement rule never replaces a non-empty `best` with an
empty buffer. -/
theorem claimImprove_ne_nil (best : List Nat) (l : List (List Nat))
    (h : best ≠ []) : claimImprove best l ≠ [] := by
  induction l generalizing best with
  | nil => exact h
  | cons o rest ih =>
      simp only [claimImprove]
      by_cases ho : o ≠ [] ∧ o.length < best.length
      · rw [if_pos ho]
        exact ih o ho.1
      · rw [if_neg ho]
        exact ih best h

/-- `compressNone` always returns at least the 4-byte header. -/
theorem compressNone_ne_nil (src : List Nat) : compressNone src ≠ [] := by
  unfold compressNone
  dsimp only
  split <;> simp [compressionHeader]

/-- Folding the codec functions and applying each to `src` is folding over
the list of codec results. -/
theorem foldl_apply_src (funcs : List (List Nat → List Nat))
    (src best : List Nat) :
    funcs.foldl
      (fun best compress =>
        let output := compress src
        if best = [] ∨ (output ≠ [] ∧ output.length < best.length) then output
        else best) best =
    (funcs.map (fun compress => compress src)).foldl
      (fun best output =>
        if best = [] ∨ (output ≠ [] ∧ output.length < best.length) then output
        else best) best := by
  induction funcs generalizing best with
  | nil => rfl
  | cons f fs ih =>
      simp only [List.foldl_cons, List.map_cons]
      exact ih _

/-- `compressAuto` never returns an empty buffer: the first codec tried is
`compressNone`, whose result is non-empty, and the selector only ever
replaces it with non-empty results. -/
theorem compressAuto_ne_nil (lzssEncode lz11Encode huffEncode rleEncode :
    List Nat → List Nat) (src : List Nat) :
    compressAuto lzssEncode lz11Encode huffEncode rleEncode src ≠ [] := by
  unfold compressAuto
  dsimp only
  rw [foldl_apply_src]
  simp only [List.map_cons, List.map_nil]
  rw [foldl_step_eq_claimSelect]
  simp only [claimSelect]
  rw [if_neg (compressNone_ne_nil src)]
  exact claimImprove_ne_nil _ _ (compressNone_ne_nil src)

/-- **C6**: `compressAuto` tries the codecs in the fixed order none,
lzss, lz11, huff, rle (the list in its definition) and computes exactly
the claim's selection rule `claimSelect`: keep the first non-empty
result, replace it only with a strictly smaller non-empty later result,
keep the earlier-tried codec's result on a size tie. -/
theorem c6_compressAuto_selection (lzssEncode lz11Encode huffEncode
    rleEncode : List Nat → List Nat) (src : List Nat) :
    compressAuto lzssEncode lz11Encode huffEncode rleEncode src =
      claimSelect [compressNone src, lzssEncode src, lz11Encode src,
        huffEncode src, rleEncode src] := by
  unfold compressAuto
  dsimp only
  rw [foldl_apply_src]
  simp only [List.map_cons, List.map_nil]
  exact foldl_step_eq_claimSelect _

/-- **C8**: `compressNone` always returns a non-empty result that is the
envelope header (tag `0x00` plus the uncompressed length) followed by
the data and zero padding, with total length a multiple of 4; hence the
automatic selector's result is never empty and `write_image_data` in
`COMPRESSION_AUTO` mode never takes the `CompressionFailure` branch. -/
theorem c8_compressNone_envelope (lzssEncode lz11Encode huffEncode
    rleEncode : List Nat → List Nat) (src image_data : List Nat) :
    compressNone src ≠ [] ∧
    (compressNone src).length % 4 = 0 ∧
    (∃ padLen, compressNone src =
      compressionHeader [] 0x00 src.length ++ src ++
        List.replicate padLen 0) ∧
    write_image_data lzssEncode lz11Encode huffEncode rleEncode
        .COMPRESSION_AUTO image_data =
      .ok (compressAuto lzssEncode lz11Encode huffEncode rleEncode
        image_data) := by
  refine ⟨compressNone_ne_nil src, ?_, ?_, ?_⟩
  · unfold compressNone
    dsimp only
    split
    · simp only [List.length_append, List.length_replicate]
      omega
    · omega
  · unfold compressNone
    dsimp only
    split
    · exact ⟨_, by rw [List.append_assoc]⟩
    · exact ⟨0, by simp⟩
  · unfold write_image_data
    dsimp only
    rw [if_neg (compressAuto_ne_nil lzssEncode lz11Encode huffEncode
      rleEncode image_data)]

/-- **C9** (code bug): for the 3×3 input image `imgC9` (which requires
canvas expansion, to 8×8), the row-copy loop's accesses are *not* all in
bounds: row `r = 2` reads `img.stride * 2 = 6` pixels starting at source
offset 6, i.e. source indices 6..11, while the source buffer holds only
`3 * 3 = 9` pixels. -/
theorem c9_copy_bounds_code_bug :
    potCeil imgC9.w = 8 ∧ potCeil imgC9.h = 8 ∧
    ¬ expandCopyInBounds imgC9 (potCeil imgC9.w) (potCeil imgC9.h) := by
  refine ⟨by decide, by decide, ?_⟩
  intro h
  have := h 2 (by decide)
  simp [imgC9, mkImage, potCeil] at this

/-- **C10**: `process_image` swizzles the canvas exactly when the
process format is neither ETC1 nor ETC1A4; in particular AUTO_ETC1 is
swizzled while ETC1A4 is not, even though both select the same `etc1a4`
per-tile encoder. -/
theorem c10_swizzle_condition (env : EncodeEnv) (img : Image RGBA) :
    (∀ fmt : ProcessFormat,
      (process_image env fmt img).2.1 = true ↔
        (fmt ≠ .ETC1 ∧ fmt ≠ .ETC1A4)) ∧
    (∀ fmt, (process_image env fmt img).2.1 = true →
      (process_image env fmt img).1 = swizzleImage img false) ∧
    (∀ fmt, (process_image env fmt img).2.1 = false →
      (process_image env fmt img).1 = img) ∧
    processEncoder .AUTO_ETC1 = .etc1a4 ∧
    processEncoder .ETC1A4 = .etc1a4 ∧
    (process_image env .AUTO_ETC1 img).2.1 = true ∧
    (process_image env .ETC1A4 img).2.1 = false := by
  refine ⟨?_, ?_, ?_, rfl, rfl, rfl, rfl⟩ <;>
    intro fmt <;> cases fmt <;> simp [process_image]

/-- **C5**: an input image wider or taller than 1024 makes the whole
invocation fail with `InvalidDimension`: `load_image` throws before any
canvas expansion, and the `Except` bind in `go` short-circuits past tile
encoding, compression and output writing, so no output data exists. -/
theorem c5_oversize_rejected (env : EncodeEnv) (p : Params)
    (hbig : p.input_img.w > 1024 ∨ p.input_img.h > 1024) :
    go env p = .error .InvalidDimension := by
  have hload : load_image p.input_img = .error .InvalidDimension := by
    unfold load_image
    rcases hbig with hw | hh
    · rw [if_pos hw]
    · by_cases hw : p.input_img.w > 1024
      · rw [if_pos hw]
      · rw [if_neg hw, if_pos hh]
  unfold go
  rw [hload]
  rfl

/-- Witness for C5 at a concrete 1025×1 image. -/
theorem c5_oversize_rejected_witness :
    (paramsC5.input_img.w > 1024 ∨ paramsC5.input_img.h > 1024) ∧
    go envTrivial paramsC5 = .error .InvalidDimension :=
  ⟨Or.inl (by decide),
    c5_oversize_rejected envTrivial paramsC5 (Or.inl (by decide))⟩

/-- **C4**: for a 10×10 input image, normalization yields a 16×16
canvas, the single sub-image descriptor is
`(left, top, right, bottom, rotated) = (0, 1, 10/16 = 0.625,
1 − 10/16 = 0.375, false)`, and the header's dimension byte is
`(log2 16 − 3) | ((log2 16 − 3) << 3) = 0x09`. -/
theorem c4_ten_by_ten_shape :
    (load_image imgC4).map
        (fun res => (res.1.w, res.1.h, res.2.1, res.2.2.1, res.2.2.2)) =
      .ok (16, 16, [⟨0, "", 0, 1, 5/8, 3/8, false⟩], 16, 16) ∧
    textureParams 16 16 = 0x09 := by
  have h16 : potCeil 10 = 16 :=
    potCeil_eq_pow 10 3 (by norm_num) (by norm_num) (by norm_num)
  have hlog : Nat.log 2 16 = 4 := by
    rw [show (16 : Nat) = 2 ^ 4 by norm_num, Nat.log_pow (by norm_num)]
  constructor
  · simp only [load_image, imgC4, mkImage, h16]
    norm_num [expandCanvas, mkImage, Except.map, SubImage.mk.injEq]
  · simp only [textureParams, hlog]
    decide

end Tex3DS
